import Mathlib

/-!
Verification of the tracing-forest crate (src/tracing-forest) against its
natural-language specification.

The development shallowly embeds the relevant parts of the source:

* the tree data model (src/tracing-forest/src/tree/mod.rs),
* the tag type (src/tracing-forest/src/tag.rs),
* the processor abstraction and fallback combinator
  (src/tracing-forest/src/processor.rs),
* the ForestLayer assembler state machine (src/tracing-forest/src/layer/mod.rs),
* the pretty printer (src/tracing-forest/src/printer/pretty.rs).

Machine integers: Rust Duration values are nonnegative integer nanosecond
counts; they are modelled as Nat.  Instant subtraction in the source goes
through saturating_duration_since, which truncated Nat subtraction models
exactly.  Uuids are opaque 128-bit identifiers; they are modelled as Nat with
0 standing for Uuid::nil().  The pretty printer casts nanosecond counts to
f64 and divides; those computations are modelled with exact rationals, which
agree with f64 on every value exercised here.  The printer is modelled in the
configuration without the uuid and chrono cargo features, so a line prefix is
the padded level only.
-/

namespace TracingForest

/-- Severity level, mirroring tracing::Level as used by the crate. -/
inductive Level where
  | trace
  | debug
  | info
  | warn
  | error
deriving DecidableEq, Repr

/-- Display form of a level, as printed by the {:<8} format in the source. -/
def Level.display : Level → String
  | .trace => "TRACE"
  | .debug => "DEBUG"
  | .info => "INFO"
  | .warn => "WARN"
  | .error => "ERROR"

/-- Tag, from src/tracing-forest/src/tag.rs.  The source field prefix is
named prefixStr here. -/
structure Tag where
  prefixStr : Option String
  level : String
  icon : Char
deriving DecidableEq, Repr

/-- Tag::new_custom_level. -/
def Tag.newCustomLevel (p : Option String) (level : String) (icon : Char) : Tag :=
  ⟨p, level, icon⟩

/-- Tag::new, mapping each severity level to its canonical label and icon. -/
def Tag.new (p : Option String) : Level → Tag
  | .trace => Tag.newCustomLevel p "trace" '📍'
  | .debug => Tag.newCustomLevel p "debug" '🐛'
  | .info => Tag.newCustomLevel p "info" '💬'
  | .warn => Tag.newCustomLevel p "warn" '🚧'
  | .error => Tag.newCustomLevel p "error" '🚨'

/-- Tag::new_level. -/
def Tag.newLevel (level : Level) : Tag := Tag.new none level

/-- The From Level for Tag impl. -/
def Tag.ofLevel (level : Level) : Tag := Tag.newLevel level

/-- The Display impl for Tag: prefix.level, or level when no prefix. -/
def Tag.display (t : Tag) : String :=
  match t.prefixStr with
  | some p => p ++ "." ++ t.level
  | none => t.level

/-- Modelled from the spec: the Field key-value pair of tree/field.rs, whose
source file is absent from src/.  The spec describes event fields as an
ordered sequence of (key, value) pairs. -/
structure Field where
  key : String
  value : String
deriving DecidableEq, Repr

/-- Modelled from the spec: FieldSet is the growable ordered container of
fields; Vec push appends at the end. -/
abbrev FieldSet := List Field

/-- The nil Uuid, all zeros. -/
def nilUuid : Nat := 0

/-- Shared attributes of events and spans, from tree/mod.rs (uuid feature
enabled, chrono feature disabled). -/
structure Shared where
  uuid : Nat
  level : Level
deriving DecidableEq, Repr

/-- Event, from tree/mod.rs. -/
structure Event where
  shared : Shared
  message : Option String
  tag : Tag
  fields : FieldSet
deriving DecidableEq, Repr

/-- Tree, from tree/mod.rs.  The Span variant carries the Span fields inline
because Lean nested inductives cannot reference a later structure. -/
inductive Tree where
  | event (event : Event) : Tree
  | span (shared : Shared) (name : String) (children : List Tree)
      (total_duration : Nat) (inner_duration : Nat) : Tree

/-- Span, from tree/mod.rs, as a standalone record. -/
structure Span where
  shared : Shared
  name : String
  children : List Tree
  total_duration : Nat
  inner_duration : Nat

/-- Packaging a Span record as a Tree, the Tree::Span constructor. -/
def Span.toTree (s : Span) : Tree :=
  Tree.span s.shared s.name s.children s.total_duration s.inner_duration

/-- Span::uuid. -/
def Span.uuid (s : Span) : Nat := s.shared.uuid

/-- Span::total_duration accessor is the field itself; Span::base_duration
from tree/mod.rs lines 238-240: total_duration - inner_duration. -/
def Span.base_duration (s : Span) : Nat := s.total_duration - s.inner_duration

/-!
Processor abstraction, from src/tracing-forest/src/processor.rs.

The source result type is Result<(), (Tree, Box<dyn Error + Send + Sync>)>:
an error always carries the rejected Tree together with an error cause.  The
boxed error is modelled as a String.  A Processor is modelled as its process
function.
-/

/-- processor::Result from processor.rs line 26. -/
abbrev ProcResult := Except (Tree × String) Unit

/-- A processor, modelled by its process function. -/
abbrev Proc := Tree → ProcResult

/-- WithFallback::process from processor.rs lines 100-105: try the primary;
on failure, hand the tree carried in the error to the fallback (the eprintln
side channel is not part of the returned value). -/
def withFallback (primary fallback : Proc) : Proc := fun tree =>
  match primary tree with
  | .ok u => .ok u
  | .error (tree2, _err) => fallback tree2

/-- Sink::process from processor.rs lines 114-118: always succeeds. -/
def sinkProcess : Proc := fun _ => .ok ()

/-- Left-nested fallback chaining, as produced by repeated Processor::or
calls: p.or(q).or(r) is orChain p [q, r]. -/
def orChain (p : Proc) (ps : List Proc) : Proc := ps.foldl withFallback p

/-- Whether a ProcResult is a success. -/
def ProcResult.isOkB : ProcResult → Bool
  | .ok _ => true
  | .error _ => false

/-!
The event field Visitor from ForestLayer::on_event
(src/tracing-forest/src/layer/mod.rs lines 168-198).
-/

/-- A value passed to the visitor: tracing dispatches bool values to
record_bool and every other value, already rendered by its Debug impl, to
record_debug. -/
inductive RecordValue where
  | bool (b : Bool)
  | debug (s : String)
deriving DecidableEq, Repr

/-- One recorded field-value pair, as seen by the visitor. -/
structure FieldRecord where
  name : String
  value : RecordValue
deriving DecidableEq, Repr

/-- Visitor state from on_event. -/
structure Visitor where
  message : Option String
  fields : FieldSet
  immediate : Bool
deriving DecidableEq, Repr

/-- The Debug rendering of a bool, as produced by the record_bool fallthrough. -/
def debugFormatBool (b : Bool) : String := if b then "true" else "false"

/-- Visitor::record_debug from layer/mod.rs lines 183-189: the first field
named message is captured as the message; every other field, including later
message fields, is pushed onto the field list. -/
def Visitor.recordDebug (v : Visitor) (key : String) (value : String) : Visitor :=
  if key = "message" && v.message.isNone then { v with message := some value }
  else { v with fields := v.fields ++ [⟨key, value⟩] }

/-- Visitor::record_bool from layer/mod.rs lines 176-181: a field named
immediate ORs into the immediate flag; any other bool falls through to
record_debug. -/
def Visitor.recordBool (v : Visitor) (key : String) (b : Bool) : Visitor :=
  if key = "immediate" then { v with immediate := v.immediate || b }
  else v.recordDebug key (debugFormatBool b)

/-- Dispatch of one record to the visitor. -/
def Visitor.record (v : Visitor) (r : FieldRecord) : Visitor :=
  match r.value with
  | .bool b => v.recordBool r.name b
  | .debug s => v.recordDebug r.name s

/-- Running the visitor over all recorded field-value pairs of an event,
starting from the initial state built in on_event. -/
def visitEvent (rs : List FieldRecord) : Visitor :=
  rs.foldl Visitor.record ⟨none, [], false⟩

/-- The records that reach record_debug, with bool values rendered: a bool
named immediate is consumed by the flag and dropped. -/
def debugView : List FieldRecord → List Field
  | [] => []
  | r :: rs =>
    match r.value with
    | .bool b =>
        if r.name = "immediate" then debugView rs
        else ⟨r.name, debugFormatBool b⟩ :: debugView rs
    | .debug s => ⟨r.name, s⟩ :: debugView rs

/-- The value of the first field named message, if any. -/
def firstMessage (fs : List Field) : Option String :=
  (fs.find? (fun f => f.key == "message")).map (fun f => f.value)

/-- Removing the first field named message, keeping everything else in order. -/
def dropFirstMessage : List Field → List Field
  | [] => []
  | f :: fs => if f.key = "message" then fs else f :: dropFirstMessage fs

/-- Whether some record is a bool true named immediate. -/
def anyImmediate (rs : List FieldRecord) : Bool :=
  rs.any fun r =>
    match r.value with
    | .bool b => (r.name == "immediate") && b
    | .debug _ => false

/-!
The tree assembler: the ForestLayer state machine from
src/tracing-forest/src/layer/mod.rs, driven by lifecycle notifications.

The tracing registry is an external collaborator; it is modelled as the list
of currently open spans, keyed by the numeric span Id tracing assigns.  Each
notification carries the ids the registry would resolve for it:

* for on_new_span, parent is the id the SpanRef parent() call resolves (the
  explicit parent if one was passed to the span macro, else the current
  span), and current is the id ctx.lookup_current() resolves (always the
  currently entered span); the two differ exactly when an explicit parent is
  supplied,
* for on_event, current is the id ctx.event_span(event) resolves.

Instants are nanosecond counts.  Uuid::new_v4 draws fresh random ids; it is
modelled by a counter supply that never returns nil.  The processor at the
root is modelled as the sink that stores every processed tree in order.
Usage errors, which the source turns into panics via the fail module, make a
step return none.
-/

/-- Span::new, whose body lives in the part of tree/mod.rs not present in
src/.  Modelled from the spec: open creates a transient open span with the
given shared data and name, no children yet, and zero total and nested
durations. -/
def Span.new (shared : Shared) (name : String) : Span :=
  { shared := shared, name := name, children := [],
    total_duration := 0, inner_duration := 0 }

/-- OpenedSpan from layer/mod.rs lines 22-25: the in-flight span plus the
instant of the last enter (initially the creation instant). -/
structure OpenedSpan where
  span : Span
  start : Nat

/-- OpenedSpan::enter from layer/mod.rs lines 83-85. -/
def OpenedSpan.enter (o : OpenedSpan) (now : Nat) : OpenedSpan :=
  { o with start := now }

/-- OpenedSpan::exit from layer/mod.rs lines 87-89: add the elapsed time
since the last enter to the total duration.  Instant::elapsed saturates at
zero, which truncated Nat subtraction models exactly. -/
def OpenedSpan.exit (o : OpenedSpan) (now : Nat) : OpenedSpan :=
  { o with span := { o.span with
      total_duration := o.span.total_duration + (now - o.start) } }

/-- OpenedSpan::record_event from layer/mod.rs lines 95-104: overwrite the
event uuid with the span uuid and append the event to the children. -/
def OpenedSpan.record_event (o : OpenedSpan) (event : Event) : OpenedSpan :=
  let event := { event with shared := { event.shared with uuid := o.span.uuid } }
  { o with span := { o.span with
      children := o.span.children ++ [Tree.event event] } }

/-- OpenedSpan::record_span from layer/mod.rs lines 106-109: add the closed
child total into the nested duration and append the child. -/
def OpenedSpan.record_span (o : OpenedSpan) (child : Span) : OpenedSpan :=
  { o with span := { o.span with
      inner_duration := o.span.inner_duration + child.total_duration,
      children := o.span.children ++ [child.toTree] } }

/-- One registry slot: the span id, the parent id resolved at creation, and
the in-flight span stored in the span extensions. -/
structure OpenEntry where
  id : Nat
  parentId : Option Nat
  opened : OpenedSpan

/-- Assembler state: the open-span registry, the trees handed to the
processor so far (in order), and the fresh-uuid supply. -/
structure AsmState where
  openSpans : List OpenEntry
  emitted : List Tree
  fresh : Nat

/-- The initial assembler state. -/
def initState : AsmState := ⟨[], [], 0⟩

/-- Registry lookup by span id. -/
def lookupOpen (st : AsmState) (id : Nat) : Option OpenEntry :=
  st.openSpans.find? (fun e => e.id == id)

/-- Replacing the stored OpenedSpan of the entry with the given id. -/
def setOpened (os : List OpenEntry) (id : Nat) (o : OpenedSpan) : List OpenEntry :=
  os.map fun e => if e.id == id then { e with opened := o } else e

/-- Removing the entry with the given id. -/
def removeOpen (os : List OpenEntry) (id : Nat) : List OpenEntry :=
  os.filter fun e => !(e.id == id)

/-- Lifecycle notifications consumed by the layer.  now parameters are the
instants the source reads from the monotone clock. -/
inductive Action where
  | newSpan (id : Nat) (parent : Option Nat) (current : Option Nat)
      (explicitUuid : Option Nat) (name : String) (level : Level) (now : Nat)
  | enter (id : Nat) (now : Nat)
  | exit (id : Nat) (now : Nat)
  | close (id : Nat)
  | onEvent (current : Option Nat) (level : Level) (records : List FieldRecord)

/-- The uuid choice of OpenedSpan::new (layer/mod.rs lines 32-65): the
explicitly recorded uuid if present, else the uuid of the span that
ctx.lookup_current() resolves, else a freshly generated one.  Returns the
chosen uuid and the updated fresh supply; a dangling current id is a
registry-level usage error. -/
def newUuid (st : AsmState) (current explicitUuid : Option Nat) : Option (Nat × Nat) :=
  match explicitUuid with
  | some u => some (u, st.fresh)
  | none =>
    match current with
    | some c =>
      match lookupOpen st c with
      | some ce => some (ce.opened.span.uuid, st.fresh)
      | none => none
    | none => some (st.fresh + 1, st.fresh + 1)

/-- ForestLayer::on_new_span together with OpenedSpan::new (layer/mod.rs
lines 28-81, 160-166): store a fresh OpenedSpan under the span id; a
collision on the span id is a registry-level usage error. -/
def stepNewSpan (st : AsmState) (id : Nat) (parent current explicitUuid : Option Nat)
    (name : String) (level : Level) (now : Nat) : Option AsmState :=
  if (lookupOpen st id).isSome then none
  else
    match newUuid st current explicitUuid with
    | some (uuid, fresh2) =>
        some { st with
          openSpans :=
            ⟨id, parent, ⟨Span.new ⟨uuid, level⟩ name, now⟩⟩ :: st.openSpans,
          fresh := fresh2 }
    | none => none

/-- ForestLayer::on_close (layer/mod.rs lines 256-287): remove the opened
span, clamp total_duration up to inner_duration, then either attach to the
still-open parent via record_span or emit the finished root tree. -/
def stepClose (st : AsmState) (id : Nat) : Option AsmState :=
  match lookupOpen st id with
  | none => none
  | some entry =>
    let rest := removeOpen st.openSpans id
    let sp0 := entry.opened.span
    let sp :=
      if sp0.total_duration < sp0.inner_duration then
        { sp0 with total_duration := sp0.inner_duration }
      else sp0
    match entry.parentId with
    | some p =>
      match rest.find? (fun e => e.id == p) with
      | some pe =>
          some { st with
            openSpans := setOpened rest p (pe.opened.record_span sp) }
      | none => none
    | none =>
      some { st with
        openSpans := rest,
        emitted := st.emitted ++ [sp.toTree] }

/-- ForestLayer::on_event (layer/mod.rs lines 168-236): run the visitor,
build the event with the nil uuid, then either attach it to the resolved
span via record_event or process it directly at the root. -/
def stepEvent (st : AsmState) (current : Option Nat) (level : Level)
    (records : List FieldRecord) : Option AsmState :=
  let v := visitEvent records
  let event : Event :=
    { shared := ⟨nilUuid, level⟩, message := v.message,
      tag := Tag.ofLevel level, fields := v.fields }
  match current with
  | some c =>
    match lookupOpen st c with
    | some ce =>
        some { st with
          openSpans := setOpened st.openSpans c (ce.opened.record_event event) }
    | none => none
  | none => some { st with emitted := st.emitted ++ [Tree.event event] }

/-- One step of the assembler state machine. -/
def step (st : AsmState) : Action → Option AsmState
  | .newSpan id parent current explicitUuid name level now =>
      stepNewSpan st id parent current explicitUuid name level now
  | .enter id now =>
      match lookupOpen st id with
      | some e => some { st with openSpans := setOpened st.openSpans id (e.opened.enter now) }
      | none => none
  | .exit id now =>
      match lookupOpen st id with
      | some e => some { st with openSpans := setOpened st.openSpans id (e.opened.exit now) }
      | none => none
  | .close id => stepClose st id
  | .onEvent current level records => stepEvent st current level records

/-- Running the assembler from a given state. -/
def runFrom (st : AsmState) : List Action → Option AsmState
  | [] => some st
  | a :: as_ =>
    match step st a with
    | some st2 => runFrom st2 as_
    | none => none

/-- Running the assembler from the initial state. -/
def runAsm (as_ : List Action) : Option AsmState := runFrom initState as_

/-- The trees the assembler handed to the processor, in order; empty when
the notification sequence hits a usage error. -/
def assemble (as_ : List Action) : List Tree :=
  match runAsm as_ with
  | some st => st.emitted
  | none => []

/-- Uuid stored for an open span. -/
def uuidOfOpen (st : AsmState) (id : Nat) : Option Nat :=
  (lookupOpen st id).map fun e => e.opened.span.uuid

/-!
Invariant machinery for the assembled trees.
-/

/-- Sum of total_duration over the direct children that are spans. -/
def spanSum : List Tree → Nat
  | [] => 0
  | Tree.event _ :: ts => spanSum ts
  | Tree.span _ _ _ total _ :: ts => total + spanSum ts

mutual

/-- All Span records contained in a tree, the node itself first. -/
def spansOf : Tree → List Span
  | Tree.event _ => []
  | Tree.span sh n cs total inner => ⟨sh, n, cs, total, inner⟩ :: spansOfForest cs

/-- All Span records contained in a forest, in order. -/
def spansOfForest : List Tree → List Span
  | [] => []
  | t :: ts => spansOf t ++ spansOfForest ts

end

mutual

/-- Post-close well-formedness of a tree: at every span node, the nested
duration is the sum of the direct span children totals and is bounded by the
total duration. -/
def treeClosedInvB : Tree → Bool
  | Tree.event _ => true
  | Tree.span _ _ cs total inner =>
      (inner == spanSum cs) && decide (inner ≤ total) && forestClosedInvB cs

/-- Post-close well-formedness of every tree of a forest. -/
def forestClosedInvB : List Tree → Bool
  | [] => true
  | t :: ts => treeClosedInvB t && forestClosedInvB ts

end

/-- Well-formedness of a still-open span: children are closed and well
formed and the nested duration is their span sum; the total duration is not
yet constrained, that is exactly what the close-time clamp repairs. -/
def openInvB (o : OpenedSpan) : Bool :=
  (o.span.inner_duration == spanSum o.span.children) &&
    forestClosedInvB o.span.children

/-- The assembler state invariant. -/
def stateInvB (st : AsmState) : Bool :=
  st.openSpans.all (fun e => openInvB e.opened) && forestClosedInvB st.emitted

/-- A top-level tree emitted at the root is either a span, or an event whose
uuid is still the nil uuid it was built with. -/
def rootEventNilB : Tree → Bool
  | Tree.event e => e.shared.uuid == nilUuid
  | Tree.span _ _ _ _ _ => true

/-!
The pretty printer, from src/tracing-forest/src/printer/pretty.rs.

The f64 values (nanosecond counts cast from u128 and their quotients) are
modelled as exact rationals.  The {:.N} float format of Rust prints the value
rounded to N decimals with ties going to the even digit; formatFixed mirrors
that on rationals.  The writer is modelled by returning the appended string;
the indent vector, which the source mutates through a mutable reference, is
threaded explicitly and returned alongside.
-/

/-- Indent, from pretty.rs lines 174-179. -/
inductive Indent where
  | Null
  | Line
  | Fork
  | Turn
deriving DecidableEq, Repr

/-- Indent::repr from pretty.rs lines 182-189. -/
def Indent.repr : Indent → String
  | .Null => "   "
  | .Line => "│  "
  | .Fork => "┝━ "
  | .Turn => "┕━ "

/-- Overwriting the last marker of the indent stack, a last_mut assignment;
a no-op on the empty stack. -/
def setLastIndent : List Indent → Indent → List Indent
  | [], _ => []
  | [_], v => [v]
  | x :: y :: xs, v => x :: setLastIndent (y :: xs) v

/-- The single-marker normalization of pretty.rs lines 147-151. -/
def normInd : Indent → Indent
  | .Turn => .Null
  | .Fork => .Line
  | x => x

/-- Normalizing the last marker of the indent stack: a last-branch becomes
blank and a branch becomes a continuing line (pretty.rs lines 147-151). -/
def normalizeLastIndent : List Indent → List Indent
  | [] => []
  | [x] => [normInd x]
  | x :: y :: xs => x :: normalizeLastIndent (y :: xs)

/-- An exact fraction of integers, the model of the f64 values the printer
computes: nanosecond counts and their products and quotients.  Every value
built by the printer keeps a positive denominator.  Mathlib rationals are
avoided so that concrete renderings reduce inside the kernel. -/
structure Frac where
  num : Int
  den : Int
deriving DecidableEq, Repr

/-- The fraction of a nanosecond count. -/
def Frac.ofNat (n : Nat) : Frac := ⟨n, 1⟩

/-- Exact product. -/
def Frac.mul (a b : Frac) : Frac := ⟨a.num * b.num, a.den * b.den⟩

/-- Exact quotient. -/
def Frac.div (a b : Frac) : Frac := ⟨a.num * b.den, a.den * b.num⟩

/-- Exact difference. -/
def Frac.sub (a b : Frac) : Frac := ⟨a.num * b.den - b.num * a.den, a.den * b.den⟩

/-- Comparison by cross multiplication, the rational order whenever both
denominators are positive. -/
def Frac.lt (a b : Frac) : Prop := a.num * b.den < b.num * a.den

instance : OfNat Frac n := ⟨⟨(n : Int), 1⟩⟩

instance : Mul Frac := ⟨Frac.mul⟩

instance : Div Frac := ⟨Frac.div⟩

instance : Sub Frac := ⟨Frac.sub⟩

instance : LT Frac := ⟨Frac.lt⟩

instance (a b : Frac) : Decidable (a < b) :=
  inferInstanceAs (Decidable (a.num * b.den < b.num * a.den))

/-- Unfolding the order on fractions. -/
theorem Frac.lt_def (a b : Frac) : (a < b) = (a.num * b.den < b.num * a.den) := rfl

/-- Unfolding the quotient of fractions. -/
theorem Frac.div_def (a b : Frac) : a / b = ⟨a.num * b.den, a.den * b.num⟩ := rfl

/-- Unfolding the product of fractions. -/
theorem Frac.mul_def (a b : Frac) : a * b = ⟨a.num * b.num, a.den * b.den⟩ := rfl

/-- Unfolding the difference of fractions. -/
theorem Frac.sub_def (a b : Frac) :
    a - b = ⟨a.num * b.den - b.num * a.den, a.den * b.den⟩ := rfl

/-- Floor of a fraction with positive denominator, via Euclidean division. -/
def Frac.floor (a : Frac) : Int := Int.ediv a.num a.den

/-- Round to the nearest integer, ties to the even integer, the rounding the
Rust float formatter applies to the exact value. -/
def roundHalfEven (q : Frac) : Int :=
  let f := q.floor
  let r : Frac := q - ⟨f, 1⟩
  if r < ⟨1, 2⟩ then f
  else if (⟨1, 2⟩ : Frac) < r then f + 1
  else if f % 2 = 0 then f else f + 1

/-- Left-padding a digit string with zeros up to the given width. -/
def padZeros (s : String) (d : Nat) : String :=
  String.mk (List.replicate (d - s.length) '0') ++ s

/-- The Rust {:.d} fixed-point rendering of a value. -/
def formatFixed (q : Frac) (d : Nat) : String :=
  let n := roundHalfEven (q * Frac.ofNat (10 ^ d))
  let sign := if n < 0 then "-" else ""
  let m := n.natAbs
  if d = 0 then sign ++ toString m
  else sign ++ toString (m / 10 ^ d) ++ "." ++ padZeros (toString (m % 10 ^ d)) d

/-- The unit loop body of the DurationDisplay impl, pretty.rs lines 195-209.
The unit strings of the source are ns, micro-seconds, ms, s. -/
def durationDisplayGo : Frac → List String → String
  | t, [] => formatFixed (t * 1000) 0 ++ "s"
  | t, u :: us =>
    if t < 10 then formatFixed t 2 ++ u
    else if t < 100 then formatFixed t 1 ++ u
    else if t < 1000 then formatFixed t 0 ++ u
    else durationDisplayGo (t / 1000) us

/-- DurationDisplay rendering of a nanosecond value. -/
def durationDisplay (t : Frac) : String :=
  durationDisplayGo t ["ns", "µs", "ms", "s"]

/-- Concatenation of a list of written fragments, in order. -/
def strJoin : List String → String
  | [] => ""
  | s :: ss => s ++ strJoin ss

/-- Left-aligned width-8 padding, the {:<8} format. -/
def padLevel (s : String) : String :=
  s ++ String.mk (List.replicate (8 - s.length) ' ')

/-- Pretty::format_shared (pretty.rs lines 89-97) in the configuration
without the uuid and chrono features: the padded level and a space. -/
def formatShared (sh : Shared) : String := padLevel sh.level.display ++ " "

/-- Pretty::format_indent (pretty.rs lines 99-104). -/
def formatIndentStr (ind : List Indent) : String :=
  strJoin (ind.map Indent.repr)

/-- Pretty::format_event (pretty.rs lines 106-117). -/
def formatEventStr (e : Event) : String :=
  String.singleton e.tag.icon ++ " [" ++ e.tag.display ++ "]: " ++
    e.message.getD "" ++
    strJoin (e.fields.map fun f => " | " ++ f.key ++ ": " ++ f.value) ++
    "\n"

/-- The header line written by Pretty::format_span (pretty.rs lines
126-144): name, duration, the exclusive percent when any nested duration
exists, and the inclusive percent, relative to the root duration. -/
def spanHeaderStr (s : Span) (rootDur : Frac) : String :=
  s.name ++ " [ " ++ durationDisplay (Frac.ofNat s.total_duration) ++ " | " ++
    (if 0 < s.inner_duration then
      formatFixed (100 * Frac.ofNat s.base_duration / rootDur) 2 ++ "% / "
    else "") ++
    formatFixed (100 * Frac.ofNat s.total_duration / rootDur) 2 ++ "% ]\n"

mutual

/-- Pretty::format_tree (pretty.rs lines 68-87) fused with
Pretty::format_span (lines 119-171): returns the text written and the indent
stack as the mutable vector leaves the call. -/
def formatTree : Tree → Option Frac → List Indent → String × List Indent
  | Tree.event e, _, ind =>
      (formatShared e.shared ++ formatIndentStr ind ++ formatEventStr e, ind)
  | Tree.span sh name cs total inner, root, ind =>
      let s : Span := ⟨sh, name, cs, total, inner⟩
      let rootDur : Frac := root.getD (Frac.ofNat total)
      let header := formatShared sh ++ formatIndentStr ind ++ spanHeaderStr s rootDur
      match cs with
      | [] => (header, ind)
      | c :: rest =>
          let ind1 := normalizeLastIndent ind ++ [Indent.Fork]
          let r := formatForest (c :: rest) rootDur ind1
          (header ++ r.1, r.2.dropLast)

/-- The split_last child loop of Pretty::format_span (pretty.rs lines
146-168): before every child except the last the top marker is set to Fork,
before the last child it is set to Turn. -/
def formatForest : List Tree → Frac → List Indent → String × List Indent
  | [], _, ind => ("", ind)
  | [c], root, ind => formatTree c (some root) (setLastIndent ind Indent.Turn)
  | c :: c2 :: rest, root, ind =>
      let r1 := formatTree c (some root) (setLastIndent ind Indent.Fork)
      let r2 := formatForest (c2 :: rest) root r1.2
      (r1.1 ++ r2.1, r2.2)

end

/-- The Formatter impl for Pretty (pretty.rs lines 55-65): format from the
root with no inherited root duration and an empty indent stack. -/
def prettyFmt (t : Tree) : String := (formatTree t none []).1

/-- The rendering of a span children list claimed by the spec: every child
but the last at the branch marker, the last at the last-branch marker, all
below the normalized enclosing stack, all sharing one root duration. -/
def renderedChildren (cs : List Tree) (rootDur : Frac) (ind : List Indent) : String :=
  match cs with
  | [] => ""
  | c :: rest =>
      strJoin ((c :: rest).dropLast.map fun t =>
        (formatTree t (some rootDur) (normalizeLastIndent ind ++ [Indent.Fork])).1) ++
      (formatTree ((c :: rest).getLast (List.cons_ne_nil c rest)) (some rootDur)
        (normalizeLastIndent ind ++ [Indent.Turn])).1

/-- The decimal-place rule the spec states for a scaled duration value: two
decimals below 10 units, one below 100, none below 1000. -/
def decimalRule (t : Frac) (unit : String) : String :=
  if t < 10 then formatFixed t 2 ++ unit
  else if t < 100 then formatFixed t 1 ++ unit
  else formatFixed t 0 ++ unit

/-- The closed form of the duration auto-scaling the spec describes:
factor-1000 unit boundaries from ns up to s, with seconds reused beyond the
last boundary. -/
def durationScaled (q : Frac) : String :=
  if q < 1000 then decimalRule q "ns"
  else if q < 1000000 then decimalRule (q / 1000) "µs"
  else if q < 1000000000 then decimalRule (q / 1000000) "ms"
  else if q < 1000000000000 then decimalRule (q / 1000000000) "s"
  else formatFixed (q / 1000000000000 * 1000) 0 ++ "s"

/-!
Concrete fixtures used by witnesses and counterexamples.
-/

/-- A sample root event tree. -/
def sampleTree : Tree :=
  Tree.event ⟨⟨nilUuid, .info⟩, some "hello", Tag.ofLevel .info, []⟩

/-- A processor that always fails, returning the tree in the report. -/
def failProcA : Proc := fun t => .error (t, "primary failed")

/-- A second always-failing processor. -/
def failProcB : Proc := fun t => .error (t, "fallback failed")

/-- The child span of the spec fixture: inner, total 40 time-units. -/
def fixtureInner : Tree := Tree.span ⟨nilUuid, .info⟩ "inner" [] 40 0

/-- The sibling event of the spec fixture. -/
def fixtureEvent : Tree :=
  Tree.event ⟨⟨nilUuid, .info⟩, some "sibling", Tag.ofLevel .info, []⟩

/-- The spec fixture: root span outer, total 100 time-units, one child span
and one sibling event. -/
def fixtureOuterTree : Tree :=
  Tree.span ⟨nilUuid, .info⟩ "outer" [fixtureInner, fixtureEvent] 100 40

/-- A notification sequence building the spec fixture through the
assembler. -/
def wActions : List Action := [
  .newSpan 1 none none none "outer" .info 0,
  .enter 1 0,
  .newSpan 2 (some 1) (some 1) none "inner" .info 10,
  .enter 2 10,
  .exit 2 50,
  .close 2,
  .onEvent (some 1) .info [⟨"message", .debug "sibling"⟩],
  .exit 1 100,
  .close 1]

/-- The tree the assembler emits for wActions. -/
def wTree : Tree :=
  Tree.span ⟨1, .info⟩ "outer"
    [Tree.span ⟨1, .info⟩ "inner" [] 40 0,
     Tree.event ⟨⟨1, .info⟩, some "sibling", Tag.ofLevel .info, []⟩]
    100 40

/-- The root span record of wTree. -/
def wOuterSpan : Span :=
  ⟨⟨1, .info⟩, "outer",
    [Tree.span ⟨1, .info⟩ "inner" [] 40 0,
     Tree.event ⟨⟨1, .info⟩, some "sibling", Tag.ofLevel .info, []⟩],
    100, 40⟩

/-- A notification sequence opening a span whose explicit parent (span 1)
differs from the currently entered span (span 2): tracing resolves parent()
to the explicitly passed parent while lookup_current() still returns the
entered span.  Spans 1 and 2 are roots with freshly generated uuids 1 and 2. -/
def c5Actions : List Action := [
  .newSpan 1 none none none "a" .info 0,
  .newSpan 2 none none none "b" .info 0,
  .newSpan 3 (some 1) (some 2) none "c" .info 0]

/-- The state after opening one span with the explicit uuid 7. -/
def c5WitnessState : AsmState :=
  ⟨[⟨5, none, ⟨Span.new ⟨7, Level.info⟩ "w", 0⟩⟩], [], 0⟩

/-!
Theorems.  Helper lemmas come first, then one theorem per claim with its
witness or counterexample.
-/

/-- An always-failing processor yields an error pair at every tree. -/
theorem allFail_shape (r : Proc) (h : ∀ u, ProcResult.isOkB (r u) = false)
    (u : Tree) : ∃ t2 e, r u = .error (t2, e) := by
  cases hru : r u with
  | ok v => have := h u; rw [hru] at this; simp [ProcResult.isOkB] at this
  | error pr =>
    obtain ⟨t2, e⟩ := pr
    exact ⟨t2, e, rfl⟩

/-- A left-nested fallback chain of processors that all always fail returns
the output of the last processor in the chain at some tree. -/
theorem orChain_allFail (ps : List Proc) : ∀ (p : Proc) (t : Tree),
    (∀ q ∈ p :: ps, ∀ u, ProcResult.isOkB (q u) = false) →
    ∃ u, orChain p ps t = (p :: ps).getLast (List.cons_ne_nil p ps) u := by
  induction ps with
  | nil => exact fun p t _ => ⟨t, rfl⟩
  | cons q rest ih =>
    intro p t hall
    have hp : ∀ u, ProcResult.isOkB (p u) = false := hall p (by simp)
    have hq : ∀ u, ProcResult.isOkB (q u) = false := hall q (by simp)
    cases rest with
    | nil =>
      obtain ⟨t2, e, hpe⟩ := allFail_shape p hp t
      exact ⟨t2, by simp [orChain, List.foldl, withFallback, hpe, List.getLast]⟩
    | cons r2 rest2 =>
      have hpq : ∀ u, ProcResult.isOkB (withFallback p q u) = false := by
        intro u
        obtain ⟨t2, e, hpe⟩ := allFail_shape p hp u
        have hwf : withFallback p q u = q t2 := by simp [withFallback, hpe]
        rw [hwf]; exact hq t2
      have hall2 : ∀ r ∈ withFallback p q :: r2 :: rest2,
          ∀ u, ProcResult.isOkB (r u) = false := by
        intro r hr u
        rcases List.mem_cons.mp hr with h | h
        · subst h; exact hpq u
        · exact hall r (by simp [h]) u
      obtain ⟨u, hu⟩ := ih (withFallback p q) t hall2
      exact ⟨u, hu⟩

/-- C3: with_fallback first runs the primary; on failure the fallback runs
on the tree carried back in the report; the composite succeeds exactly when
the primary succeeds or the fallback succeeds on the carried tree; and a
chain in which every processor always fails returns the last processor's
failure. -/
theorem with_fallback_composition :
    (∀ (p f : Proc) (t t2 : Tree) (e : String),
        p t = .error (t2, e) → withFallback p f t = f t2) ∧
    (∀ (p f : Proc) (t : Tree),
        withFallback p f t = .ok () ↔
          p t = .ok () ∨ ∃ t2 e, p t = .error (t2, e) ∧ f t2 = .ok ()) ∧
    (∀ (p : Proc) (ps : List Proc) (t : Tree),
        (∀ q ∈ p :: ps, ∀ u, ProcResult.isOkB (q u) = false) →
        ∃ u, orChain p ps t = (p :: ps).getLast (List.cons_ne_nil p ps) u) := by
  refine ⟨?_, ?_, fun p ps t h => orChain_allFail ps p t h⟩
  · intro p f t t2 e h
    simp [withFallback, h]
  · intro p f t
    cases hpt : p t with
    | ok v =>
      cases v
      simp [withFallback, hpt]
    | error pr =>
      obtain ⟨t2, e⟩ := pr
      simp [withFallback, hpt]

/-- Witness for C3 at a concrete processor pair and tree. -/
theorem with_fallback_composition_witness :
    failProcA sampleTree = .error (sampleTree, "primary failed") ∧
    withFallback failProcA sinkProcess sampleTree = sinkProcess sampleTree :=
  ⟨rfl, with_fallback_composition.1 failProcA sinkProcess sampleTree sampleTree
    "primary failed" rfl⟩

/-- C4 counterexample: the processor result type always carries the tree in
the report, so even at a concrete always-failing primary the fallback is
invoked and the composite succeeds, contradicting the claimed consumed-tree
failure mode in which the error propagates without invoking the fallback. -/
theorem consumed_tree_counterexample :
    failProcA sampleTree = .error (sampleTree, "primary failed") ∧
    withFallback failProcA sinkProcess sampleTree = .ok () ∧
    sinkProcess sampleTree = .ok () :=
  ⟨rfl, rfl, rfl⟩

/-- C4 amended: every failure of process carries the rejected tree in the
report, and with_fallback therefore always invokes the fallback on that tree
when the primary fails; no consumed-tree failure mode exists. -/
theorem process_failure_always_carries_tree :
    ∀ (p f : Proc) (t : Tree) (r : Tree × String),
      p t = .error r → withFallback p f t = f r.1 := by
  intro p f t r h
  simp [withFallback, h]

/-- Witness for the amended C4 at a concrete processor pair and tree. -/
theorem process_failure_always_carries_tree_witness :
    failProcB sampleTree = .error (sampleTree, "fallback failed") ∧
    withFallback failProcB failProcA sampleTree = failProcA sampleTree :=
  ⟨rfl, process_failure_always_carries_tree failProcB failProcA sampleTree
    (sampleTree, "fallback failed") rfl⟩

/-- Running the visitor fold once the message slot is filled: every further
record that reaches record_debug is kept as an ordinary field. -/
theorem visitor_foldl_some (rs : List FieldRecord) :
    ∀ (m : String) (fs : FieldSet) (imm : Bool),
      rs.foldl Visitor.record ⟨some m, fs, imm⟩ =
        ⟨some m, fs ++ debugView rs, imm || anyImmediate rs⟩ := by
  induction rs with
  | nil => intro m fs imm; simp [debugView, anyImmediate]
  | cons r rest ih =>
    intro m fs imm
    obtain ⟨name, value⟩ := r
    cases value with
    | bool b =>
      by_cases h : name = "immediate"
      · subst h
        simp [List.foldl, Visitor.record, Visitor.recordBool, ih, debugView,
          anyImmediate, List.any_cons, Bool.or_assoc]
      · have hb : (name == "immediate") = false := beq_eq_false_iff_ne.mpr h
        simp [List.foldl, Visitor.record, Visitor.recordBool, h, hb,
          Visitor.recordDebug, ih, debugView, anyImmediate, List.any_cons]
    | debug s =>
      simp [List.foldl, Visitor.record, Visitor.recordDebug, ih, debugView,
        anyImmediate, List.any_cons]

/-- Running the visitor fold with the message slot still empty: the first
record named message that reaches record_debug fills the slot, everything
else is kept in order. -/
theorem visitor_foldl_none (rs : List FieldRecord) :
    ∀ (fs : FieldSet) (imm : Bool),
      rs.foldl Visitor.record ⟨none, fs, imm⟩ =
        ⟨firstMessage (debugView rs), fs ++ dropFirstMessage (debugView rs),
          imm || anyImmediate rs⟩ := by
  induction rs with
  | nil => intro fs imm; simp [debugView, firstMessage, dropFirstMessage, anyImmediate]
  | cons r rest ih =>
    intro fs imm
    obtain ⟨name, value⟩ := r
    cases value with
    | bool b =>
      by_cases h : name = "immediate"
      · subst h
        simp [List.foldl, Visitor.record, Visitor.recordBool, ih, debugView,
          anyImmediate, List.any_cons, Bool.or_assoc]
      · by_cases hm : name = "message"
        · subst hm
          simp [List.foldl, Visitor.record, Visitor.recordBool, h,
            Visitor.recordDebug, visitor_foldl_some, debugView, anyImmediate,
            List.any_cons, firstMessage, dropFirstMessage, List.find?]
        · have hb : (name == "immediate") = false := beq_eq_false_iff_ne.mpr h
          have hbm : (name == "message") = false := beq_eq_false_iff_ne.mpr hm
          simp [List.foldl, Visitor.record, Visitor.recordBool, h, hb, hbm,
            Visitor.recordDebug, hm, ih, debugView, anyImmediate,
            List.any_cons, firstMessage, dropFirstMessage, List.find?]
    | debug s =>
      by_cases hm : name = "message"
      · subst hm
        simp [List.foldl, Visitor.record, Visitor.recordDebug,
          visitor_foldl_some, debugView, anyImmediate, List.any_cons,
          firstMessage, dropFirstMessage, List.find?]
      · have hbm : (name == "message") = false := beq_eq_false_iff_ne.mpr hm
        simp [List.foldl, Visitor.record, Visitor.recordDebug, hm, hbm, ih,
          debugView, anyImmediate, List.any_cons, firstMessage,
          dropFirstMessage, List.find?]

/-- C9 counterexample: a boolean field named immediate is consumed by the
immediate flag, not kept as an ordinary field, so the recorded fields of an
event carrying only that field are empty rather than the claimed pair. -/
theorem visitor_immediate_counterexample :
    (visitEvent [⟨"immediate", RecordValue.bool true⟩]).fields = [] ∧
    ([] : FieldSet) ≠ [⟨"immediate", "true"⟩] ∧
    (visitEvent [⟨"immediate", RecordValue.bool true⟩]).immediate = true :=
  ⟨rfl, by decide, rfl⟩

/-- C9 amended: the message is captured exactly from the first record named
message that reaches record_debug; every later message record and every
record with any other name is kept as an ordinary key-value pair in recorded
order, except that a boolean record named immediate is consumed by the
immediate flag and dropped. -/
theorem visitor_record_semantics :
    ∀ rs : List FieldRecord,
      (visitEvent rs).message = firstMessage (debugView rs) ∧
      (visitEvent rs).fields = dropFirstMessage (debugView rs) ∧
      (visitEvent rs).immediate = anyImmediate rs := by
  intro rs
  have h := visitor_foldl_none rs [] false
  simp [visitEvent] at h ⊢
  rw [h]
  simp

/-- Span sums add over concatenation. -/
theorem spanSum_append (l1 l2 : List Tree) :
    spanSum (l1 ++ l2) = spanSum l1 + spanSum l2 := by
  induction l1 with
  | nil => simp [spanSum]
  | cons t ts ih => cases t <;> simp [spanSum, ih] <;> omega

/-- Forest well-formedness distributes over concatenation. -/
theorem forestClosedInvB_append (l1 l2 : List Tree) :
    forestClosedInvB (l1 ++ l2) = (forestClosedInvB l1 && forestClosedInvB l2) := by
  induction l1 with
  | nil => simp [forestClosedInvB]
  | cons t ts ih => simp [forestClosedInvB, ih, Bool.and_assoc]

/-- Forest well-formedness is well-formedness of every member. -/
theorem forestClosedInvB_iff (l : List Tree) :
    forestClosedInvB l = true ↔ ∀ t ∈ l, treeClosedInvB t = true := by
  induction l with
  | nil => simp [forestClosedInvB]
  | cons t ts ih => simp [forestClosedInvB, ih]

/-- Entering only changes the stored instant. -/
theorem openInvB_enter (o : OpenedSpan) (now : Nat) :
    openInvB (o.enter now) = openInvB o := rfl

/-- Exiting only grows the total duration, which the open invariant does not
constrain. -/
theorem openInvB_exit (o : OpenedSpan) (now : Nat) :
    openInvB (o.exit now) = openInvB o := rfl

/-- Attaching an event preserves the open invariant: events contribute
nothing to the span sum. -/
theorem openInvB_record_event (o : OpenedSpan) (ev : Event) :
    openInvB (o.record_event ev) = openInvB o := by
  simp [openInvB, OpenedSpan.record_event, spanSum_append, spanSum,
    forestClosedInvB_append, forestClosedInvB, treeClosedInvB]

/-- Unfolding tree well-formedness at a packaged span. -/
theorem treeClosedInvB_toTree (sp : Span) :
    treeClosedInvB sp.toTree =
      ((sp.inner_duration == spanSum sp.children) &&
        decide (sp.inner_duration ≤ sp.total_duration) &&
        forestClosedInvB sp.children) := rfl

/-- Attaching a well-formed closed child preserves the open invariant and
accounts its total into the nested duration. -/
theorem openInvB_record_span (o : OpenedSpan) (sp : Span)
    (hsp : treeClosedInvB sp.toTree = true) (ho : openInvB o = true) :
    openInvB (o.record_span sp) = true := by
  simp only [openInvB, Bool.and_eq_true, beq_iff_eq] at ho
  obtain ⟨h1, h2⟩ := ho
  have hsum : spanSum [sp.toTree] = sp.total_duration := by
    simp [Span.toTree, spanSum]
  have hforest : forestClosedInvB [sp.toTree] = true := by
    simp [forestClosedInvB, hsp]
  simp only [openInvB, OpenedSpan.record_span, spanSum_append,
    forestClosedInvB_append, hsum, hforest, Bool.and_eq_true, beq_iff_eq,
    Bool.and_true]
  exact ⟨by omega, h2⟩

/-- The close-time clamp turns the open invariant into the closed one. -/
theorem clamp_closed (o : OpenedSpan) (ho : openInvB o = true) :
    treeClosedInvB ((if o.span.total_duration < o.span.inner_duration then
      { o.span with total_duration := o.span.inner_duration }
    else o.span).toTree) = true := by
  simp only [openInvB, Bool.and_eq_true, beq_iff_eq] at ho
  obtain ⟨h1, h2⟩ := ho
  split <;> simp [treeClosedInvB_toTree, h1, h2] <;> omega

/-- Updating one slot preserves the registry invariant when the new opened
span satisfies it. -/
theorem all_openInv_setOpened (os : List OpenEntry) (id : Nat) (o : OpenedSpan)
    (h : os.all (fun e => openInvB e.opened) = true) (ho : openInvB o = true) :
    (setOpened os id o).all (fun e => openInvB e.opened) = true := by
  rw [List.all_eq_true] at h ⊢
  intro e he
  rcases List.mem_map.mp he with ⟨e0, he0, rfl⟩
  by_cases hc : (e0.id == id) = true
  · simp [hc, ho]
  · simp only [Bool.not_eq_true] at hc
    simp [hc]
    exact h e0 he0

/-- Removing a slot preserves any registry-wide property. -/
theorem all_removeOpen (os : List OpenEntry) (id : Nat)
    (f : OpenEntry → Bool) (h : os.all f = true) :
    (removeOpen os id).all f = true := by
  rw [List.all_eq_true] at h ⊢
  intro e he
  exact h e (List.mem_of_mem_filter he)

/-- A successful registry lookup returns a stored entry. -/
theorem lookupOpen_mem (st : AsmState) (id : Nat) (e : OpenEntry)
    (h : lookupOpen st id = some e) : e ∈ st.openSpans :=
  List.mem_of_find?_eq_some h

/-- Looking up a slot after updating it returns the updated entry. -/
theorem lookupOpen_setOpened (os : List OpenEntry) (id : Nat) (o : OpenedSpan)
    (e : OpenEntry) (h : os.find? (fun x => x.id == id) = some e) :
    (setOpened os id o).find? (fun x => x.id == id) =
      some { e with opened := o } := by
  induction os with
  | nil => simp [List.find?] at h
  | cons x xs ih =>
    simp only [setOpened, List.map] at *
    cases hc : (x.id == id) with
    | true =>
      simp only [List.find?, hc] at h
      have hx := Option.some.inj h
      subst hx
      simp [List.find?, hc]
    | false =>
      simp only [List.find?, hc] at h
      simp only [List.find?, hc, if_neg, Bool.false_eq_true, if_false]
      simpa using ih h

/-- The state invariant split into its two halves. -/
theorem stateInvB_iff (st : AsmState) :
    stateInvB st = true ↔
      (st.openSpans.all (fun e => openInvB e.opened) = true ∧
        forestClosedInvB st.emitted = true) := by
  simp [stateInvB, Bool.and_eq_true]

/-- Every assembler step preserves the state invariant. -/
theorem step_inv (st : AsmState) (a : Action) (st2 : AsmState)
    (h : step st a = some st2) (hinv : stateInvB st = true) :
    stateInvB st2 = true := by
  obtain ⟨hopen, hemit⟩ := (stateInvB_iff st).mp hinv
  cases a with
  | newSpan id parent current eu nm lv now =>
    simp only [step, stepNewSpan] at h
    split at h
    · exact absurd h (by simp)
    · cases hnu : newUuid st current eu with
      | none => simp [hnu] at h
      | some pr =>
        simp only [hnu] at h
        obtain ⟨uuid, fresh2⟩ := pr
        have hst2 := Option.some.inj h
        subst hst2
        refine (stateInvB_iff _).mpr ⟨?_, hemit⟩
        simp only [List.all_cons, Bool.and_eq_true]
        refine ⟨rfl, hopen⟩
  | enter id now =>
    simp only [step] at h
    cases hl : lookupOpen st id with
    | none => simp [hl] at h
    | some e =>
      simp only [hl] at h
      have hst2 := Option.some.inj h
      subst hst2
      refine (stateInvB_iff _).mpr ⟨?_, hemit⟩
      refine all_openInv_setOpened _ _ _ hopen ?_
      rw [openInvB_enter]
      exact List.all_eq_true.mp hopen e (lookupOpen_mem st id e hl)
  | exit id now =>
    simp only [step] at h
    cases hl : lookupOpen st id with
    | none => simp [hl] at h
    | some e =>
      simp only [hl] at h
      have hst2 := Option.some.inj h
      subst hst2
      refine (stateInvB_iff _).mpr ⟨?_, hemit⟩
      refine all_openInv_setOpened _ _ _ hopen ?_
      rw [openInvB_exit]
      exact List.all_eq_true.mp hopen e (lookupOpen_mem st id e hl)
  | close id =>
    simp only [step, stepClose] at h
    cases hl : lookupOpen st id with
    | none => simp [hl] at h
    | some entry =>
      simp only [hl] at h
      have hoe : openInvB entry.opened = true :=
        List.all_eq_true.mp hopen entry (lookupOpen_mem st id entry hl)
      have hclamp := clamp_closed entry.opened hoe
      cases hp : entry.parentId with
      | some p =>
        simp only [hp] at h
        cases hf : (removeOpen st.openSpans id).find? (fun e => e.id == p) with
        | none => simp [hf] at h
        | some pe =>
          simp only [hf] at h
          have hst2 := Option.some.inj h
          subst hst2
          refine (stateInvB_iff _).mpr ⟨?_, hemit⟩
          have hpe : openInvB pe.opened = true := by
            have hrem := all_removeOpen st.openSpans id _ hopen
            exact List.all_eq_true.mp hrem pe (List.mem_of_find?_eq_some hf)
          exact all_openInv_setOpened _ _ _
            (all_removeOpen st.openSpans id _ hopen)
            (openInvB_record_span pe.opened _ hclamp hpe)
      | none =>
        simp only [hp] at h
        have hst2 := Option.some.inj h
        subst hst2
        refine (stateInvB_iff _).mpr
          ⟨all_removeOpen st.openSpans id _ hopen, ?_⟩
        rw [forestClosedInvB_append]
        simp [hemit, forestClosedInvB, hclamp]
  | onEvent current lv records =>
    simp only [step, stepEvent] at h
    cases current with
    | some c =>
      simp only at h
      cases hl : lookupOpen st c with
      | none => simp [hl] at h
      | some ce =>
        simp only [hl] at h
        have hst2 := Option.some.inj h
        subst hst2
        refine (stateInvB_iff _).mpr ⟨?_, hemit⟩
        refine all_openInv_setOpened _ _ _ hopen ?_
        rw [openInvB_record_event]
        exact List.all_eq_true.mp hopen ce (lookupOpen_mem st c ce hl)
    | none =>
      simp only at h
      have hst2 := Option.some.inj h
      subst hst2
      refine (stateInvB_iff _).mpr ⟨hopen, ?_⟩
      rw [forestClosedInvB_append]
      simp [hemit, forestClosedInvB, treeClosedInvB]

/-- Runs preserve the state invariant. -/
theorem runFrom_inv : ∀ (as_ : List Action) (st st2 : AsmState),
    runFrom st as_ = some st2 → stateInvB st = true → stateInvB st2 = true := by
  intro as_
  induction as_ with
  | nil =>
    intro st st2 h hi
    simp only [runFrom] at h
    rw [← Option.some.inj h]
    exact hi
  | cons a rest ih =>
    intro st st2 h hi
    simp only [runFrom] at h
    cases hs : step st a with
    | none => rw [hs] at h; exact absurd h (by simp)
    | some st1 =>
      rw [hs] at h
      exact ih st1 st2 h (step_inv st a st1 hs hi)

/-- Every tree the assembler hands to the processor is well formed. -/
theorem assemble_closedInv (as_ : List Action) (t : Tree)
    (ht : t ∈ assemble as_) : treeClosedInvB t = true := by
  unfold assemble at ht
  cases hr : runAsm as_ with
  | none => rw [hr] at ht; simp at ht
  | some st =>
    rw [hr] at ht
    have hinv : stateInvB st = true := runFrom_inv as_ initState st hr rfl
    exact (forestClosedInvB_iff _).mp ((stateInvB_iff st).mp hinv).2 t ht

/-- At every span record of a well-formed tree, the nested duration is the
span sum of the children and is bounded by the total duration. -/
theorem treeClosedInv_spans : ∀ t : Tree, treeClosedInvB t = true →
    ∀ s ∈ spansOf t,
      s.inner_duration = spanSum s.children ∧
      s.inner_duration ≤ s.total_duration := by
  have H := @Tree.rec
    (fun t => treeClosedInvB t = true →
      ∀ s ∈ spansOf t,
        s.inner_duration = spanSum s.children ∧
        s.inner_duration ≤ s.total_duration)
    (fun l => forestClosedInvB l = true →
      ∀ s ∈ spansOfForest l,
        s.inner_duration = spanSum s.children ∧
        s.inner_duration ≤ s.total_duration)
  apply H
  · intro e _ s hs
    simp [spansOf] at hs
  · intro sh nm cs tot inn ih hinv s hs
    simp only [treeClosedInvB, Bool.and_eq_true, beq_iff_eq,
      decide_eq_true_eq] at hinv
    obtain ⟨⟨h1, h2⟩, h3⟩ := hinv
    simp only [spansOf] at hs
    rcases List.mem_cons.mp hs with rfl | hs2
    · exact ⟨h1, h2⟩
    · exact ih h3 s hs2
  · intro _ s hs
    simp [spansOfForest] at hs
  · intro t ts iht ihts hinv s hs
    simp only [forestClosedInvB, Bool.and_eq_true] at hinv
    simp only [spansOfForest] at hs
    rcases List.mem_append.mp hs with h | h
    · exact iht hinv.1 s h
    · exact ihts hinv.2 s h

/-- C1: on every tree the assembler produces, every span satisfies the
clamped duration invariant: the nested duration never exceeds the total
duration, and base_duration is an exact, non-underflowing subtraction. -/
theorem assembler_duration_invariant :
    ∀ (as_ : List Action) (t : Tree), t ∈ assemble as_ →
      ∀ s ∈ spansOf t,
        s.inner_duration ≤ s.total_duration ∧
        s.base_duration + s.inner_duration = s.total_duration := by
  intro as_ t ht s hs
  have h := treeClosedInv_spans t (assemble_closedInv as_ t ht) s hs
  refine ⟨h.2, ?_⟩
  have := h.2
  unfold Span.base_duration
  omega

/-- Witness for C1 on the concrete fixture run. -/
theorem assembler_duration_invariant_witness :
    wTree ∈ assemble wActions ∧ wOuterSpan ∈ spansOf wTree ∧
    (wOuterSpan.inner_duration ≤ wOuterSpan.total_duration ∧
      wOuterSpan.base_duration + wOuterSpan.inner_duration =
        wOuterSpan.total_duration) := by
  have h1 : assemble wActions = [wTree] := rfl
  have hm : wTree ∈ assemble wActions := by
    rw [h1]; exact List.mem_singleton.mpr rfl
  have hs : wOuterSpan ∈ spansOf wTree := by
    have h2 : spansOf wTree =
        [wOuterSpan, ⟨⟨1, .info⟩, "inner", [], 40, 0⟩] := rfl
    rw [h2]; exact List.mem_cons_self _ _
  exact ⟨hm, hs, assembler_duration_invariant wActions wTree hm wOuterSpan hs⟩

/-- C2: on every tree the assembler produces, the nested duration of every
span is exactly the sum of the total durations of its direct span children;
events contribute nothing. -/
theorem assembler_nested_sum :
    ∀ (as_ : List Action) (t : Tree), t ∈ assemble as_ →
      ∀ s ∈ spansOf t, s.inner_duration = spanSum s.children := by
  intro as_ t ht s hs
  exact (treeClosedInv_spans t (assemble_closedInv as_ t ht) s hs).1

/-- Witness for C2 on the concrete fixture run. -/
theorem assembler_nested_sum_witness :
    wTree ∈ assemble wActions ∧ wOuterSpan ∈ spansOf wTree ∧
    wOuterSpan.inner_duration = spanSum wOuterSpan.children := by
  have h1 : assemble wActions = [wTree] := rfl
  have hm : wTree ∈ assemble wActions := by
    rw [h1]; exact List.mem_singleton.mpr rfl
  have hs : wOuterSpan ∈ spansOf wTree := by
    have h2 : spansOf wTree =
        [wOuterSpan, ⟨⟨1, .info⟩, "inner", [], 40, 0⟩] := rfl
    rw [h2]; exact List.mem_cons_self _ _
  exact ⟨hm, hs, assembler_nested_sum wActions wTree hm wOuterSpan hs⟩

/-- Every assembler step extends the emitted list only with trees whose
top-level events carry the nil uuid. -/
theorem step_emitted_nil (st : AsmState) (a : Action) (st2 : AsmState)
    (h : step st a = some st2)
    (he : st.emitted.all rootEventNilB = true) :
    st2.emitted.all rootEventNilB = true := by
  cases a with
  | newSpan id parent current eu nm lv now =>
    simp only [step, stepNewSpan] at h
    split at h
    · exact absurd h (by simp)
    · cases hnu : newUuid st current eu with
      | none => simp [hnu] at h
      | some pr =>
        simp only [hnu] at h
        obtain ⟨uuid, fresh2⟩ := pr
        have hst2 := Option.some.inj h
        subst hst2
        exact he
  | enter id now =>
    simp only [step] at h
    cases hl : lookupOpen st id with
    | none => simp [hl] at h
    | some e =>
      simp only [hl] at h
      have hst2 := Option.some.inj h
      subst hst2
      exact he
  | exit id now =>
    simp only [step] at h
    cases hl : lookupOpen st id with
    | none => simp [hl] at h
    | some e =>
      simp only [hl] at h
      have hst2 := Option.some.inj h
      subst hst2
      exact he
  | close id =>
    simp only [step, stepClose] at h
    cases hl : lookupOpen st id with
    | none => simp [hl] at h
    | some entry =>
      simp only [hl] at h
      cases hp : entry.parentId with
      | some p =>
        simp only [hp] at h
        cases hf : (removeOpen st.openSpans id).find? (fun e => e.id == p) with
        | none => simp [hf] at h
        | some pe =>
          simp only [hf] at h
          have hst2 := Option.some.inj h
          subst hst2
          exact he
      | none =>
        simp only [hp] at h
        have hst2 := Option.some.inj h
        subst hst2
        simp [List.all_append, he, rootEventNilB, Span.toTree]
  | onEvent current lv records =>
    simp only [step, stepEvent] at h
    cases current with
    | some c =>
      simp only at h
      cases hl : lookupOpen st c with
      | none => simp [hl] at h
      | some ce =>
        simp only [hl] at h
        have hst2 := Option.some.inj h
        subst hst2
        exact he
    | none =>
      simp only at h
      have hst2 := Option.some.inj h
      subst hst2
      simp [List.all_append, he, rootEventNilB]

/-- Runs preserve the nil-uuid property of emitted root events. -/
theorem runFrom_emitted_nil : ∀ (as_ : List Action) (st st2 : AsmState),
    runFrom st as_ = some st2 → st.emitted.all rootEventNilB = true →
    st2.emitted.all rootEventNilB = true := by
  intro as_
  induction as_ with
  | nil =>
    intro st st2 h he
    simp only [runFrom] at h
    rw [← Option.some.inj h]
    exact he
  | cons a rest ih =>
    intro st st2 h he
    simp only [runFrom] at h
    cases hs : step st a with
    | none => rw [hs] at h; exact absurd h (by simp)
    | some st1 =>
      rw [hs] at h
      exact ih st1 st2 h (step_emitted_nil st a st1 hs he)

/-- C10: every event the assembler forwards to the processor at the root
level carries the nil uuid: the uuid is initialized to nil at construction
and is only overwritten when the event is attached to an open span, so a
root event keeps nil, neither fresh nor inherited. -/
theorem root_events_nil_uuid :
    ∀ as_ : List Action, (assemble as_).all rootEventNilB = true := by
  intro as_
  unfold assemble
  cases hr : runAsm as_ with
  | none => simp
  | some st => exact runFrom_emitted_nil as_ initState st hr rfl

/-- C5 counterexample: opening a span with an explicit parent (span 1,
uuid 1) while span 2 (uuid 2) is the currently entered span makes the new
span inherit the CURRENT span uuid 2, not its parent uuid 1 as claimed. -/
theorem uuid_inheritance_counterexample :
    (runAsm c5Actions).bind (fun st => uuidOfOpen st 3) = some 2 ∧
    (runAsm c5Actions).bind (fun st => uuidOfOpen st 1) = some 1 ∧
    (2 : Nat) ≠ 1 :=
  ⟨rfl, rfl, by decide⟩

/-- C5 amended: the correlation id of a new span is the explicitly supplied
id if any, else the id of the currently entered open span resolved through
lookup_current (which is the parent only in the default contextual case),
else freshly generated and nonzero; and an event attached to an open span
has its id overwritten with that span id. -/
theorem uuid_assignment :
    (∀ (st : AsmState) (id : Nat) (p cur : Option Nat) (u : Nat)
        (nm : String) (lv : Level) (n : Nat) (st2 : AsmState),
        stepNewSpan st id p cur (some u) nm lv n = some st2 →
        uuidOfOpen st2 id = some u) ∧
    (∀ (st : AsmState) (id : Nat) (p : Option Nat) (c : Nat) (nm : String)
        (lv : Level) (n : Nat) (st2 : AsmState) (ce : OpenEntry),
        lookupOpen st c = some ce →
        stepNewSpan st id p (some c) none nm lv n = some st2 →
        uuidOfOpen st2 id = some ce.opened.span.uuid) ∧
    (∀ (st : AsmState) (id : Nat) (p : Option Nat) (nm : String) (lv : Level)
        (n : Nat) (st2 : AsmState),
        stepNewSpan st id p none none nm lv n = some st2 →
        uuidOfOpen st2 id = some (st.fresh + 1) ∧ st.fresh + 1 ≠ nilUuid) ∧
    (∀ (st : AsmState) (c : Nat) (lv : Level) (rs : List FieldRecord)
        (st2 : AsmState) (ce : OpenEntry),
        lookupOpen st c = some ce →
        stepEvent st (some c) lv rs = some st2 →
        ∃ ev : Event,
          (lookupOpen st2 c).map (fun e => e.opened.span.children) =
            some (ce.opened.span.children ++ [Tree.event ev]) ∧
          ev.shared.uuid = ce.opened.span.uuid) := by
  refine ⟨?_, ?_, ?_, ?_⟩
  · intro st id p cur u nm lv n st2 h
    simp only [stepNewSpan, newUuid] at h
    split at h
    · exact absurd h (by simp)
    · have hst2 := Option.some.inj h
      subst hst2
      simp [uuidOfOpen, lookupOpen, List.find?, Span.new, Span.uuid]
  · intro st id p c nm lv n st2 ce hce h
    simp only [stepNewSpan, newUuid, hce] at h
    split at h
    · exact absurd h (by simp)
    · have hst2 := Option.some.inj h
      subst hst2
      simp [uuidOfOpen, lookupOpen, List.find?, Span.new, Span.uuid]
  · intro st id p nm lv n st2 h
    simp only [stepNewSpan, newUuid] at h
    split at h
    · exact absurd h (by simp)
    · have hst2 := Option.some.inj h
      subst hst2
      refine ⟨?_, by simp [nilUuid]⟩
      simp [uuidOfOpen, lookupOpen, List.find?, Span.new, Span.uuid]
  · intro st c lv rs st2 ce hce h
    simp only [stepEvent, hce] at h
    have hst2 := Option.some.inj h
    subst hst2
    refine ⟨{ shared := ⟨ce.opened.span.uuid, lv⟩,
              message := (visitEvent rs).message,
              tag := Tag.ofLevel lv,
              fields := (visitEvent rs).fields }, ?_, rfl⟩
    have hfind := lookupOpen_setOpened st.openSpans c
      (ce.opened.record_event
        { shared := ⟨nilUuid, lv⟩, message := (visitEvent rs).message,
          tag := Tag.ofLevel lv, fields := (visitEvent rs).fields }) ce hce
    simp only [lookupOpen]
    rw [hfind]
    rfl

/-- Witness for the amended C5: an explicitly supplied uuid is stored
verbatim. -/
theorem uuid_assignment_witness :
    stepNewSpan initState 5 none none (some 7) "w" Level.info 0 =
      some c5WitnessState ∧
    uuidOfOpen c5WitnessState 5 = some 7 :=
  ⟨rfl, uuid_assignment.1 initState 5 none none 7 "w" Level.info 0
    c5WitnessState rfl⟩

/-- Setting the last marker of a nonempty stack replaces its last element. -/
theorem setLastIndent_concat (l : List Indent) (x v : Indent) :
    setLastIndent (l ++ [x]) v = l ++ [v] := by
  induction l with
  | nil => rfl
  | cons a as ih =>
    cases as with
    | nil => rfl
    | cons b bs =>
      simp only [List.cons_append, List.append_eq, setLastIndent]
      simp only [List.cons_append, List.append_eq] at ih
      rw [ih]

/-- Normalizing a nonempty stack maps its last element through normInd. -/
theorem normalizeLastIndent_concat (l : List Indent) (x : Indent) :
    normalizeLastIndent (l ++ [x]) = l ++ [normInd x] := by
  induction l with
  | nil => rfl
  | cons a as ih =>
    cases as with
    | nil => rfl
    | cons b bs =>
      simp only [List.cons_append, List.append_eq, normalizeLastIndent]
      simp only [List.cons_append, List.append_eq] at ih
      rw [ih]

/-- Setting the last marker twice keeps only the second assignment. -/
theorem setLastIndent_setLastIndent (l : List Indent) (v w : Indent) :
    setLastIndent (setLastIndent l v) w = setLastIndent l w := by
  rcases List.eq_nil_or_concat l with rfl | ⟨l2, x, rfl⟩
  · rfl
  · rw [List.concat_eq_append, setLastIndent_concat, setLastIndent_concat,
      setLastIndent_concat]

/-- Normalizing after a last-marker assignment normalizes that marker. -/
theorem normalize_setLastIndent (l : List Indent) (v : Indent) :
    normalizeLastIndent (setLastIndent l v) = setLastIndent l (normInd v) := by
  rcases List.eq_nil_or_concat l with rfl | ⟨l2, x, rfl⟩
  · rfl
  · rw [List.concat_eq_append, setLastIndent_concat,
      normalizeLastIndent_concat, setLastIndent_concat]

/-- A last-marker assignment overrides a prior normalization. -/
theorem setLastIndent_normalize (l : List Indent) (v : Indent) :
    setLastIndent (normalizeLastIndent l) v = setLastIndent l v := by
  rcases List.eq_nil_or_concat l with rfl | ⟨l2, x, rfl⟩
  · rfl
  · rw [List.concat_eq_append, normalizeLastIndent_concat,
      setLastIndent_concat, setLastIndent_concat]

/-- The indent stack leaves a format_tree call either untouched or with only
its last marker normalized. -/
theorem formatTree_snd : ∀ t : Tree, ∀ (root : Option Frac) (ind : List Indent),
    (formatTree t root ind).2 = ind ∨
    (formatTree t root ind).2 = normalizeLastIndent ind := by
  have H := @Tree.rec
    (fun t => ∀ (root : Option Frac) (ind : List Indent),
      (formatTree t root ind).2 = ind ∨
      (formatTree t root ind).2 = normalizeLastIndent ind)
    (fun cs => ∀ (root : Frac) (ind : List Indent), cs ≠ [] →
      ∃ w, (formatForest cs root ind).2 = setLastIndent ind w)
  apply H
  · intro e root ind
    left
    rfl
  · intro sh nm cs tot inn ih root ind
    cases cs with
    | nil => left; rfl
    | cons c rest =>
      right
      obtain ⟨w, hw⟩ := ih (root.getD (Frac.ofNat tot))
        (normalizeLastIndent ind ++ [Indent.Fork]) (List.cons_ne_nil c rest)
      show ((formatForest (c :: rest) (root.getD (Frac.ofNat tot))
        (normalizeLastIndent ind ++ [Indent.Fork])).2).dropLast =
        normalizeLastIndent ind
      rw [hw, setLastIndent_concat, List.dropLast_concat]
  · intro root ind h
    exact absurd rfl h
  · intro c cs ihc ihcs root ind _
    cases cs with
    | nil =>
      rcases ihc (some root) (setLastIndent ind Indent.Turn) with h | h
      · exact ⟨Indent.Turn, by simp only [formatForest]; rw [h]⟩
      · refine ⟨normInd Indent.Turn, ?_⟩
        simp only [formatForest]
        rw [h, normalize_setLastIndent]
    | cons c2 rest2 =>
      obtain ⟨w, hw⟩ := ihcs root
        ((formatTree c (some root) (setLastIndent ind Indent.Fork)).2)
        (List.cons_ne_nil c2 rest2)
      refine ⟨w, ?_⟩
      show (formatForest (c2 :: rest2) root
        ((formatTree c (some root) (setLastIndent ind Indent.Fork)).2)).2 =
        setLastIndent ind w
      rw [hw]
      rcases ihc (some root) (setLastIndent ind Indent.Fork) with h1 | h1
      · rw [h1, setLastIndent_setLastIndent]
      · rw [h1, normalize_setLastIndent, setLastIndent_setLastIndent]

/-- The child loop renders every child except the last below a branch
marker and the last below a last-branch marker, at a shared base stack. -/
theorem formatForest_decomp (cs : List Tree) : ∀ (root : Frac)
    (base : List Indent) (v : Indent) (h : cs ≠ []),
    (formatForest cs root (base ++ [v])).1 =
      strJoin (cs.dropLast.map fun c =>
        (formatTree c (some root) (base ++ [Indent.Fork])).1) ++
      (formatTree (cs.getLast h) (some root) (base ++ [Indent.Turn])).1 := by
  induction cs with
  | nil => intro root base v h; exact absurd rfl h
  | cons c rest ih =>
    intro root base v h
    cases rest with
    | nil =>
      simp only [formatForest, setLastIndent_concat, List.dropLast_single,
        List.map_nil, strJoin, List.getLast_singleton]
      rw [String.empty_append]
    | cons c2 rest2 =>
      simp only [formatForest, setLastIndent_concat]
      have hrest : (formatForest (c2 :: rest2) root
          ((formatTree c (some root) (base ++ [Indent.Fork])).2)).1 =
          strJoin ((c2 :: rest2).dropLast.map fun t =>
            (formatTree t (some root) (base ++ [Indent.Fork])).1) ++
          (formatTree ((c2 :: rest2).getLast (List.cons_ne_nil c2 rest2))
            (some root) (base ++ [Indent.Turn])).1 := by
        rcases formatTree_snd c (some root) (base ++ [Indent.Fork]) with h1 | h1
        · rw [h1]
          exact ih root base Indent.Fork (List.cons_ne_nil c2 rest2)
        · rw [h1, normalizeLastIndent_concat]
          exact ih root base (normInd Indent.Fork) (List.cons_ne_nil c2 rest2)
      rw [hrest]
      have hdrop : (c :: c2 :: rest2).dropLast = c :: (c2 :: rest2).dropLast := rfl
      have hlast : (c :: c2 :: rest2).getLast h =
          (c2 :: rest2).getLast (List.cons_ne_nil c2 rest2) := rfl
      rw [hdrop, hlast, List.map_cons]
      show (formatTree c (some root) (base ++ [Indent.Fork])).1 ++ _ = _
      rw [strJoin, String.append_assoc]

/-- Unfolding format_tree at a span node into the header line and the
rendered children of the spec. -/
theorem formatTree_span_decomp (sh : Shared) (nm : String) (cs : List Tree)
    (tot inn : Nat) (root : Option Frac) (ind : List Indent) :
    (formatTree (Tree.span sh nm cs tot inn) root ind).1 =
      formatShared sh ++ formatIndentStr ind ++
      spanHeaderStr ⟨sh, nm, cs, tot, inn⟩ (root.getD (Frac.ofNat tot)) ++
      renderedChildren cs (root.getD (Frac.ofNat tot)) ind := by
  cases cs with
  | nil =>
    show formatShared sh ++ formatIndentStr ind ++
        spanHeaderStr ⟨sh, nm, [], tot, inn⟩ (root.getD (Frac.ofNat tot)) = _
    rw [renderedChildren, String.append_empty]
  | cons c rest =>
    show (formatShared sh ++ formatIndentStr ind ++
        spanHeaderStr ⟨sh, nm, c :: rest, tot, inn⟩ (root.getD (Frac.ofNat tot))) ++
        (formatForest (c :: rest) (root.getD (Frac.ofNat tot))
          (normalizeLastIndent ind ++ [Indent.Fork])).1 = _
    rw [formatForest_decomp (c :: rest) (root.getD (Frac.ofNat tot))
      (normalizeLastIndent ind) Indent.Fork (List.cons_ne_nil c rest)]
    rw [renderedChildren, String.append_assoc]

/-- Unfolding a numeric literal fraction. -/
theorem Frac.ofNat_def (n : Nat) : (OfNat.ofNat n : Frac) = ⟨(n : Int), 1⟩ := rfl

/-- The loop of the DurationDisplay impl agrees with the closed-form unit
scaling the spec states, for any value with a positive denominator (every
duration cast from an integer nanosecond count is one). -/
theorem durationDisplay_eq_scaled (q : Frac) (hq : 0 < q.den) :
    durationDisplay q = durationScaled q := by
  by_cases hA : q < (1000 : Frac)
  · by_cases h1 : q < (10 : Frac)
    · simp [durationDisplay, durationDisplayGo, durationScaled, decimalRule,
        hA, h1]
    · by_cases h2 : q < (100 : Frac)
      · simp [durationDisplay, durationDisplayGo, durationScaled, decimalRule,
          hA, h1, h2]
      · simp [durationDisplay, durationDisplayGo, durationScaled, decimalRule,
          hA, h1, h2]
  · have h1 : ¬ q < (10 : Frac) := fun hh => hA (by
      revert hh
      simp only [Frac.lt_def, Frac.ofNat_def]
      omega)
    have h2 : ¬ q < (100 : Frac) := fun hh => hA (by
      revert hh
      simp only [Frac.lt_def, Frac.ofNat_def]
      omega)
    by_cases hB : q < (1000000 : Frac)
    · have h5 : q / 1000 < (1000 : Frac) := by
        revert hB
        simp only [Frac.lt_def, Frac.div_def, Frac.ofNat_def]
        omega
      by_cases h6 : q / 1000 < (10 : Frac)
      · simp [durationDisplay, durationDisplayGo, durationScaled, decimalRule,
          hA, h1, h2, hB, h6]
      · by_cases h7 : q / 1000 < (100 : Frac)
        · simp [durationDisplay, durationDisplayGo, durationScaled,
            decimalRule, hA, h1, h2, hB, h6, h7]
        · simp [durationDisplay, durationDisplayGo, durationScaled,
            decimalRule, hA, h1, h2, hB, h5, h6, h7]
    · have h5 : ¬ q / 1000 < (1000 : Frac) := fun hh => hB (by
        revert hh
        simp only [Frac.lt_def, Frac.div_def, Frac.ofNat_def]
        omega)
      have h6 : ¬ q / 1000 < (10 : Frac) := fun hh => h5 (by
        revert hh
        simp only [Frac.lt_def, Frac.div_def, Frac.ofNat_def]
        omega)
      have h7 : ¬ q / 1000 < (100 : Frac) := fun hh => h5 (by
        revert hh
        simp only [Frac.lt_def, Frac.div_def, Frac.ofNat_def]
        omega)
      have e1 : q / 1000 / 1000 = q / 1000000 := by
        simp only [Frac.div_def, Frac.ofNat_def, Frac.mk.injEq]
        omega
      by_cases hC : q < (1000000000 : Frac)
      · have h8 : q / 1000000 < (1000 : Frac) := by
          revert hC
          simp only [Frac.lt_def, Frac.div_def, Frac.ofNat_def]
          omega
        by_cases h9 : q / 1000000 < (10 : Frac)
        · simp [durationDisplay, durationDisplayGo, durationScaled,
            decimalRule, hA, h1, h2, hB, h5, h6, h7, e1, hC, h9]
        · by_cases h10 : q / 1000000 < (100 : Frac)
          · simp [durationDisplay, durationDisplayGo, durationScaled,
              decimalRule, hA, h1, h2, hB, h5, h6, h7, e1, hC, h9, h10]
          · simp [durationDisplay, durationDisplayGo, durationScaled,
              decimalRule, hA, h1, h2, hB, h5, h6, h7, e1, hC, h8, h9, h10]
      · have h8 : ¬ q / 1000000 < (1000 : Frac) := fun hh => hC (by
          revert hh
          simp only [Frac.lt_def, Frac.div_def, Frac.ofNat_def]
          omega)
        have h9 : ¬ q / 1000000 < (10 : Frac) := fun hh => h8 (by
          revert hh
          simp only [Frac.lt_def, Frac.div_def, Frac.ofNat_def]
          omega)
        have h10 : ¬ q / 1000000 < (100 : Frac) := fun hh => h8 (by
          revert hh
          simp only [Frac.lt_def, Frac.div_def, Frac.ofNat_def]
          omega)
        have e2 : q / 1000000 / 1000 = q / 1000000000 := by
          simp only [Frac.div_def, Frac.ofNat_def, Frac.mk.injEq]
          omega
        by_cases hD : q < (1000000000000 : Frac)
        · have h11 : q / 1000000000 < (1000 : Frac) := by
            revert hD
            simp only [Frac.lt_def, Frac.div_def, Frac.ofNat_def]
            omega
          by_cases h12 : q / 1000000000 < (10 : Frac)
          · simp [durationDisplay, durationDisplayGo, durationScaled,
              decimalRule, hA, h1, h2, hB, h5, h6, h7, e1, hC, h8, h9, h10,
              e2, hD, h12]
          · by_cases h13 : q / 1000000000 < (100 : Frac)
            · simp [durationDisplay, durationDisplayGo, durationScaled,
                decimalRule, hA, h1, h2, hB, h5, h6, h7, e1, hC, h8, h9, h10,
                e2, hD, h12, h13]
            · simp [durationDisplay, durationDisplayGo, durationScaled,
                decimalRule, hA, h1, h2, hB, h5, h6, h7, e1, hC, h8, h9, h10,
                e2, hD, h11, h12, h13]
        · have h11 : ¬ q / 1000000000 < (1000 : Frac) := fun hh => hD (by
            revert hh
            simp only [Frac.lt_def, Frac.div_def, Frac.ofNat_def]
            omega)
          have h12 : ¬ q / 1000000000 < (10 : Frac) := fun hh => h11 (by
            revert hh
            simp only [Frac.lt_def, Frac.div_def, Frac.ofNat_def]
            omega)
          have h13 : ¬ q / 1000000000 < (100 : Frac) := fun hh => h11 (by
            revert hh
            simp only [Frac.lt_def, Frac.div_def, Frac.ofNat_def]
            omega)
          have e3 : q / 1000000000 / 1000 = q / 1000000000000 := by
            simp only [Frac.div_def, Frac.ofNat_def, Frac.mk.injEq]
            omega
          simp [durationDisplay, durationDisplayGo, durationScaled,
            decimalRule, hA, h1, h2, hB, h5, h6, h7, e1, hC, h8, h9, h10,
            e2, hD, h11, h12, h13, e3]

/-- C6: the span line renders as name, bracketed auto-scaled duration, an
exclusive percent 100 * (total - nested) / root shown only when the nested
duration is positive, and an inclusive percent 100 * total / root, where the
root duration is the outermost total (its own total for the outermost span)
and is passed unchanged to every child; durations scale at factor-1000
boundaries with 2, 1 or 0 decimals below 10, 100 or 1000 units. -/
theorem pretty_span_header :
    (∀ q : Frac, 0 < q.den → durationDisplay q = durationScaled q) ∧
    (∀ (sh : Shared) (nm : String) (cs : List Tree) (tot inn : Nat)
        (root : Option Frac) (ind : List Indent), inn ≤ tot →
        (formatTree (Tree.span sh nm cs tot inn) root ind).1 =
          formatShared sh ++ formatIndentStr ind ++
          (nm ++ " [ " ++ durationDisplay (Frac.ofNat tot) ++ " | " ++
            (if 0 < inn then
              formatFixed
                (100 * (Frac.ofNat tot - Frac.ofNat inn) /
                  root.getD (Frac.ofNat tot)) 2 ++ "% / "
            else "") ++
            formatFixed (100 * Frac.ofNat tot / root.getD (Frac.ofNat tot)) 2 ++
            "% ]\n") ++
          renderedChildren cs (root.getD (Frac.ofNat tot)) ind) := by
  refine ⟨fun q hq => durationDisplay_eq_scaled q hq, ?_⟩
  intro sh nm cs tot inn root ind hle
  rw [formatTree_span_decomp]
  have hcast : Frac.ofNat ((⟨sh, nm, cs, tot, inn⟩ : Span).base_duration) =
      Frac.ofNat tot - Frac.ofNat inn := by
    unfold Span.base_duration Frac.ofNat
    simp only [Frac.sub_def, Frac.mk.injEq]
    omega
  simp only [spanHeaderStr, hcast]

/-- Witness for C6 at the concrete fixture span and a concrete duration. -/
theorem pretty_span_header_witness :
    (0 < (Frac.ofNat 1500).den ∧
      durationDisplay (Frac.ofNat 1500) = durationScaled (Frac.ofNat 1500)) ∧
    ((40 : Nat) ≤ 100 ∧
      (formatTree (Tree.span ⟨nilUuid, Level.info⟩ "outer"
          [fixtureInner, fixtureEvent] 100 40) none []).1 =
        formatShared ⟨nilUuid, Level.info⟩ ++ formatIndentStr [] ++
        ("outer" ++ " [ " ++ durationDisplay (Frac.ofNat 100) ++ " | " ++
          (if 0 < (40 : Nat) then
            formatFixed (100 * (Frac.ofNat 100 - Frac.ofNat 40) /
              (none : Option Frac).getD (Frac.ofNat 100)) 2 ++ "% / "
          else "") ++
          formatFixed (100 * Frac.ofNat 100 /
            (none : Option Frac).getD (Frac.ofNat 100)) 2 ++ "% ]\n") ++
        renderedChildren [fixtureInner, fixtureEvent]
          ((none : Option Frac).getD (Frac.ofNat 100)) []) :=
  ⟨⟨by decide, pretty_span_header.1 (Frac.ofNat 1500) (by decide)⟩,
    by norm_num,
    pretty_span_header.2 ⟨nilUuid, Level.info⟩ "outer"
      [fixtureInner, fixtureEvent] 100 40 none [] (by norm_num)⟩

/-- C7: a span with children renders its header, then every child but the
last below a branch marker at the new depth, then the last child below a
last-branch marker, all above the enclosing stack with its last marker
normalized (last-branch to blank, branch to continuing line). -/
theorem pretty_child_indentation :
    ∀ (sh : Shared) (nm : String) (c0 : Tree) (rest : List Tree)
      (tot inn : Nat) (root : Option Frac) (ind : List Indent),
      (formatTree (Tree.span sh nm (c0 :: rest) tot inn) root ind).1 =
        formatShared sh ++ formatIndentStr ind ++
        spanHeaderStr ⟨sh, nm, c0 :: rest, tot, inn⟩
          (root.getD (Frac.ofNat tot)) ++
        strJoin ((c0 :: rest).dropLast.map fun c =>
          (formatTree c (some (root.getD (Frac.ofNat tot)))
            (normalizeLastIndent ind ++ [Indent.Fork])).1) ++
        (formatTree ((c0 :: rest).getLast (List.cons_ne_nil c0 rest))
          (some (root.getD (Frac.ofNat tot)))
          (normalizeLastIndent ind ++ [Indent.Turn])).1 := by
  intro sh nm c0 rest tot inn root ind
  rw [formatTree_span_decomp, renderedChildren, ← String.append_assoc]

/-- C8 counterexample: on the spec fixture the formatter renders the child
span inner with the inclusive percent 40.00 (the root duration passed down
is the outer total 100, and percents have two decimals), not the claimed
100.000. -/
theorem fixture_render_counterexample :
    prettyFmt fixtureOuterTree =
      "INFO     outer [ 100ns | 60.00% / 100.00% ]\nINFO     ┝━ inner [ 40.0ns | 40.00% ]\nINFO     ┕━ 💬 [info]: sibling\n" ∧
    formatFixed (100 * Frac.ofNat 40 / Frac.ofNat 100) 2 = "40.00" ∧
    "40.00" ≠ "100.000" ∧ "40.00" ≠ "100.00" :=
  ⟨rfl, rfl, by decide, by decide⟩

/-- C8 amended: on the spec fixture the formatter renders outer with the
exclusive percent 60.00 and inclusive 100.00, inner with inclusive 40.00,
and the last child below the last-branch marker rather than the branch
marker. -/
theorem fixture_render :
    prettyFmt fixtureOuterTree =
      "INFO     outer [ 100ns | " ++ formatFixed (Frac.ofNat 60) 2 ++ "% / " ++
        formatFixed (Frac.ofNat 100) 2 ++ "% ]\n" ++
      "INFO     " ++ Indent.repr Indent.Fork ++ "inner [ 40.0ns | " ++
        formatFixed (Frac.ofNat 40) 2 ++ "% ]\n" ++
      "INFO     " ++ Indent.repr Indent.Turn ++
        "💬 [info]: sibling\n" := rfl

end TracingForest
